import Mathlib

/-!
Shallow embedding of the matrixrain terminal animation (src/main.rs) and
verification of its specification.  Machine integers (`u8`, `u16`, `usize`)
are modelled as `ℕ`; the `f32` colour arithmetic of `fade_color` is modelled
by exact rational arithmetic (`ℚ`); fallible operations (panicking index
expressions, `unwrap`) are modelled with `Option`; terminal output is
modelled as an instruction sink that can fail on any write.
-/

namespace MatrixRain

/-- RGB colour with 8-bit channels (`hex_color::HexColor`); channels are `ℕ`
so that the claim "channels stay in [0,255]" is a provable statement rather
than a typing artifact. -/
structure HexColor where
  r : ℕ
  g : ℕ
  b : ℕ
deriving DecidableEq, Repr

/-- `HexColor::rgb(r, g, b)`. -/
def HexColor.rgb (r g b : ℕ) : HexColor := ⟨r, g, b⟩

/-- One screen cell: a character plus a colour (struct `Glyph`). -/
structure Glyph where
  character : Char
  color : HexColor
deriving DecidableEq, Repr

/-- The fixed symbol alphabet of `Glyph::new_random` (the string literal
`characters` in src/main.rs, line 27). -/
def glyphCharacters : List Char :=
  "ﾊﾐﾋｰｳｼﾅﾓﾆｻﾜﾂｵﾘｱﾎﾃﾏｹﾒｴｶｷﾑﾕﾗｾﾈｽﾀﾇﾍｦｲｸｺｿﾁﾄﾉﾌﾔﾖﾙﾚﾛﾝ¦*+-,.;".toList

/-- `Glyph::new(character, color)`. -/
def Glyph.new (character : Char) (color : HexColor) : Glyph := ⟨character, color⟩

/-- `rand.random_range(0..n)` applied to one raw generator draw: a uniform
value strictly below `n`, modelled as `draw % n`. -/
def randRange (draw n : ℕ) : ℕ := draw % n

/-- The fallible core of `Glyph::new_random`: `characters.chars().nth(idx)`
paired with the colour; `none` models the `.unwrap()` panic on a
out-of-range index. -/
def Glyph.new_random? (idx : ℕ) (color : HexColor) : Option Glyph :=
  (glyphCharacters[idx]?).map fun ch => ⟨ch, color⟩

/-- `Glyph::new_random(rand, color)`: samples an index `< characters.count()`
via `random_range` and takes that character; the `.unwrap()` is modelled by
`getD` with a default that is provably never used. -/
def Glyph.new_random (draw : ℕ) (color : HexColor) : Glyph :=
  (Glyph.new_random? (randRange draw glyphCharacters.length) color).getD ⟨' ', color⟩

/-- `Glyph::empty()`: blank character, black colour. -/
def Glyph.empty : Glyph := ⟨' ', HexColor.rgb 0 0 0⟩

/-! ### Colour mathematics of `fade_color`

`fade_color` converts the stored RGB colour to HSL via the `palette` crate,
scales saturation by 0.9 and lightness by 0.93 (clamped to [0,1]), converts
back to RGB and stores the result with a saturating `as u8` cast.  The two
conversions are external capability interfaces; they are modelled from the
spec by the standard hue/saturation/lightness formulas on channel values
scaled to [0,1], in exact rational arithmetic. -/

/-- Rust `f32::clamp(lo, hi)`. -/
def qclamp (x lo hi : ℚ) : ℚ := min (max x lo) hi

/-- HSL triple (`palette::Hsl`), hue in degrees. -/
structure Hsl where
  hue : ℚ
  saturation : ℚ
  lightness : ℚ
deriving DecidableEq, Repr

/-- Largest of three channel values scaled to [0,1]. -/
def maxOf (r g b : ℚ) : ℚ := max r (max g b)

/-- Smallest of three channel values scaled to [0,1]. -/
def minOf (r g b : ℚ) : ℚ := min r (min g b)

/-- Chroma `max - min` of three channel values. -/
def chromaOf (r g b : ℚ) : ℚ := maxOf r g b - minOf r g b

/-- HSL lightness `(max + min) / 2` of three channel values. -/
def lightnessOf (r g b : ℚ) : ℚ := (maxOf r g b + minOf r g b) / 2

/-- HSL saturation `chroma / (1 - |2l - 1|)` of three channel values (0 for
achromatic colours). -/
def saturationOf (r g b : ℚ) : ℚ :=
  if chromaOf r g b = 0 then 0
  else chromaOf r g b / (1 - |2 * lightnessOf r g b - 1|)

/-- HSL hue in degrees of three channel values, by sextant. -/
def hueOf (r g b : ℚ) : ℚ :=
  if chromaOf r g b = 0 then 0
  else if maxOf r g b = r then 60 * ((g - b) / chromaOf r g b)
  else if maxOf r g b = g then 60 * ((b - r) / chromaOf r g b + 2)
  else 60 * ((r - g) / chromaOf r g b + 4)

/-- Modelled from the spec: the RGB→HSL colour-space conversion capability
(`palette::Hsl::from_color`, not part of this repository), as the standard
hue/saturation/lightness formulas. -/
def hslFromRgb (r g b : ℚ) : Hsl :=
  ⟨hueOf r g b, saturationOf r g b, lightnessOf r g b⟩

/-- Chroma recovered from an HSL value during HSL→RGB conversion. -/
def hslChroma (hsl : Hsl) : ℚ := (1 - |2 * hsl.lightness - 1|) * hsl.saturation

/-- The additive base level `m = l - c/2` of the HSL→RGB conversion (the
smallest of the three produced channels). -/
def hslBase (hsl : Hsl) : ℚ := hsl.lightness - hslChroma hsl / 2

/-- Hue normalised into [0,360) degrees and divided by 60: the sextant
coordinate of the HSL→RGB conversion, in [0,6). -/
def hueSector (hsl : Hsl) : ℚ := (hsl.hue - 360 * ⌊hsl.hue / 360⌋) / 60

/-- The intermediate channel value `x = c * (1 - |h' mod 2 - 1|)` of the
HSL→RGB conversion. -/
def hslX (hsl : Hsl) : ℚ :=
  hslChroma hsl * (1 - |hueSector hsl - 2 * ⌊hueSector hsl / 2⌋ - 1|)

/-- Modelled from the spec: the HSL→RGB colour-space conversion capability
(`palette::Srgb::from_color`, not part of this repository), as the standard
sextant reconstruction with hue normalised into [0,360) degrees. -/
def rgbFromHsl (hsl : Hsl) : ℚ × ℚ × ℚ :=
  if hueSector hsl < 1 then
    (hslChroma hsl + hslBase hsl, hslX hsl + hslBase hsl, hslBase hsl)
  else if hueSector hsl < 2 then
    (hslX hsl + hslBase hsl, hslChroma hsl + hslBase hsl, hslBase hsl)
  else if hueSector hsl < 3 then
    (hslBase hsl, hslChroma hsl + hslBase hsl, hslX hsl + hslBase hsl)
  else if hueSector hsl < 4 then
    (hslBase hsl, hslX hsl + hslBase hsl, hslChroma hsl + hslBase hsl)
  else if hueSector hsl < 5 then
    (hslX hsl + hslBase hsl, hslBase hsl, hslChroma hsl + hslBase hsl)
  else
    (hslChroma hsl + hslBase hsl, hslBase hsl, hslX hsl + hslBase hsl)

/-- Rust `as u8` cast of a (nonnegative) float: truncate toward zero and
saturate at 255. -/
def u8cast (x : ℚ) : ℕ := min 255 (Int.toNat ⌊x⌋)

/-- The HSL value that `fade_color` produces before converting back to RGB:
the colour's HSL with saturation scaled by 0.9 and lightness scaled by 0.93,
both clamped to [0,1]. -/
def fadeHsl (c : HexColor) : Hsl :=
  let hsl := hslFromRgb ((c.r : ℚ) / 255) ((c.g : ℚ) / 255) ((c.b : ℚ) / 255)
  ⟨hsl.hue, qclamp (hsl.saturation * (9 / 10)) 0 1,
    qclamp (hsl.lightness * (93 / 100)) 0 1⟩

/-- The colour transformation of `Glyph::fade_color`: RGB→HSL, scale, back
to RGB, store with `as u8` casts. -/
def fadeColorRGB (c : HexColor) : HexColor :=
  let rgb := rgbFromHsl (fadeHsl c)
  ⟨u8cast (rgb.1 * 255), u8cast (rgb.2.1 * 255), u8cast (rgb.2.2 * 255)⟩

/-- `Glyph::fade_color(&mut self)`: replaces the stored colour by its faded
version; the character is untouched. -/
def Glyph.fade_color (gl : Glyph) : Glyph := { gl with color := fadeColorRGB gl.color }

/-- HSL saturation of a stored colour (channels scaled to [0,1]). -/
def saturation (c : HexColor) : ℚ :=
  (hslFromRgb ((c.r : ℚ) / 255) ((c.g : ℚ) / 255) ((c.b : ℚ) / 255)).saturation

/-- HSL lightness of a stored colour (channels scaled to [0,1]). -/
def lightness (c : HexColor) : ℚ :=
  (hslFromRgb ((c.r : ℚ) / 255) ((c.g : ℚ) / 255) ((c.b : ℚ) / 255)).lightness

/-- Largest channel of a colour. -/
def maxChan (c : HexColor) : ℕ := max c.r (max c.g c.b)

/-- Smallest channel of a colour. -/
def minChan (c : HexColor) : ℕ := min c.r (min c.g c.b)

/-- All three channels are valid 8-bit values. -/
def validColor (c : HexColor) : Prop := c.r ≤ 255 ∧ c.g ≤ 255 ∧ c.b ≤ 255

instance (c : HexColor) : Decidable (validColor c) := by
  unfold validColor; infer_instance

/-! ### Columns -/

/-- One vertical strip of the terminal (struct `Column`). -/
structure Column where
  height : ℕ
  base_color : HexColor
  glyphs : List Glyph
  active_index : ℕ
deriving DecidableEq, Repr

/-- `Column::new(height, base_color)`: `height` empty glyphs, active index 0. -/
def Column.new (height : ℕ) (base_color : HexColor) : Column :=
  ⟨height, base_color, List.replicate height Glyph.empty, 0⟩

/-- Well-formedness of a column: the struct invariant `active_index <
height` together with the representation fact `glyphs.len() == height`
that `Column::new` establishes. -/
def ColumnWF (col : Column) : Prop :=
  col.active_index < col.height ∧ col.glyphs.length = col.height

instance (col : Column) : Decidable (ColumnWF col) := by
  unfold ColumnWF; infer_instance

/-- First fixed spawn reference colour, `HexColor::rgb(0, 150, 255)`. -/
def spawnColor1 : HexColor := HexColor.rgb 0 150 255

/-- Second fixed spawn reference colour, `HexColor::rgb(0, 255, 43)`. -/
def spawnColor2 : HexColor := HexColor.rgb 0 255 43

/-- `choose_random(a, b)`: a 50/50 pick between `a` and `b` driven by one
`gen_bool(0.5)` draw of an independent generator, modelled by the drawn
boolean. -/
def choose_random (a b : HexColor) (coin : Bool) : HexColor :=
  if coin then a else b

/-- The random draws one `Column::step` call can consume: the gating
`random::<f32>()` value in [0,1), the `thread_rng` coin of `choose_random`,
and the raw draw behind `random_range` in `Glyph::new_random`. -/
structure StepDraws where
  gate : ℚ
  coin : Bool
  charDraw : ℕ

/-- `Column::step`: gated no-op when the head is at the top and the draw
exceeds 0.1; otherwise fade every glyph, overwrite the glyph at
`active_index` with a fresh random glyph in a randomly chosen spawn colour,
and advance `active_index` with wraparound.  `none` models the
index-out-of-bounds panic of `self.glyphs[self.active_index]` (reachable
only when `active_index ≥ glyphs.len()`). -/
def Column.step (col : Column) (gate : ℚ) (coin : Bool) (charDraw : ℕ) : Option Column :=
  if col.active_index = 0 ∧ gate > 1 / 10 then
    some col
  else
    let faded := col.glyphs.map Glyph.fade_color
    let chosen := choose_random spawnColor1 spawnColor2 coin
    if col.active_index < faded.length then
      some { col with
        glyphs := faded.set col.active_index (Glyph.new_random charDraw chosen),
        active_index :=
          if col.active_index + 1 ≥ col.height then 0 else col.active_index + 1 }
    else
      none

/-- The non-gated branch of `Column::step` written on its own: fade every
glyph, spawn at `active_index`, advance with wraparound (`none` is the
out-of-bounds panic). -/
def Column.fullStep (col : Column) (coin : Bool) (charDraw : ℕ) : Option Column :=
  let faded := col.glyphs.map Glyph.fade_color
  let chosen := choose_random spawnColor1 spawnColor2 coin
  if col.active_index < faded.length then
    some { col with
      glyphs := faded.set col.active_index (Glyph.new_random charDraw chosen),
      active_index :=
        if col.active_index + 1 ≥ col.height then 0 else col.active_index + 1 }
  else
    none

/-- `n` consecutive `Column::step` calls, the `k`-th call consuming
`draws k`. -/
def Column.stepN (col : Column) (draws : ℕ → StepDraws) : ℕ → Option Column
  | 0 => some col
  | n + 1 =>
    match col.stepN draws n with
    | none => none
    | some c => c.step (draws n).gate (draws n).coin (draws n).charDraw

/-! ### Random sources

Modelled from the spec: the random source is a capability threaded
explicitly through the stepping code (`Xoshiro256PlusPlus` for the main
generator; `rand::thread_rng()` for the spawn-colour coin flips), consumed
strictly sequentially.  A source is a stream of raw natural-number draws
plus a position; the typed draw operations interpret the raw value. -/

/-- A sequentially consumed random source. -/
structure Rng where
  stream : ℕ → ℕ
  pos : ℕ

/-- Consume the next raw draw. -/
def Rng.next (r : Rng) : ℕ × Rng := (r.stream r.pos, ⟨r.stream, r.pos + 1⟩)

/-- `rand.random::<f32>()`: a value in [0,1), modelled with millesimal
resolution from one raw draw. -/
def Rng.nextFloat (r : Rng) : ℚ × Rng :=
  let n := r.next
  (((n.1 % 1000 : ℕ) : ℚ) / 1000, n.2)

/-- `rand.random_range(0..n)`: a value `< n` from one raw draw. -/
def Rng.nextRange (r : Rng) (n : ℕ) : ℕ × Rng :=
  let k := r.next
  (randRange k.1 n, k.2)

/-- `rng.gen_bool(0.5)`: a fair coin from one raw draw. -/
def Rng.nextBool (r : Rng) : Bool × Rng :=
  let k := r.next
  (decide (k.1 % 2 = 0), k.2)

/-- The fade-spawn-advance body of `Column::step` with its draws pulled
from the two live sources: the `choose_random` coin from the thread-local
source, the character index from the main source. -/
def Column.stepBody (col : Column) (rng trng : Rng) : Option (Column × Rng × Rng) :=
  let tb := trng.nextBool
  let ir := rng.nextRange glyphCharacters.length
  (col.step 0 tb.1 ir.1).map fun c2 => (c2, ir.2, tb.2)

/-- `Column::step(&mut self, rand)` against live random sources: the gating
`random::<f32>()` draw is consumed from `rng` only when `active_index == 0`
(Rust `&&` short-circuits), exactly as in the code. -/
def Column.stepRng (col : Column) (rng trng : Rng) : Option (Column × Rng × Rng) :=
  if col.active_index = 0 then
    let fr := rng.nextFloat
    if fr.1 > 1 / 10 then some (col, fr.2, trng)
    else col.stepBody fr.2 trng
  else
    col.stepBody rng trng

/-! ### The waterfall -/

/-- The full grid (struct `MatrixWaterFall`). -/
structure MatrixWaterFall where
  width : ℕ
  height : ℕ
  base_color : HexColor
  columns : List Column
deriving DecidableEq, Repr

/-- `MatrixWaterFall::new(width, height, base_color)`: `width` clones of one
fresh column. -/
def MatrixWaterFall.new (width height : ℕ) (base_color : HexColor) : MatrixWaterFall :=
  ⟨width, height, base_color, List.replicate width (Column.new height base_color)⟩

/-- The column loop of `MatrixWaterFall::step`: update the columns from left
to right, threading both random sources through sequentially. -/
def stepColumns (cols : List Column) (rng trng : Rng) : Option (List Column × Rng × Rng) :=
  match cols with
  | [] => some ([], rng, trng)
  | c :: rest =>
    match c.stepRng rng trng with
    | none => none
    | some (c2, rng2, trng2) =>
      (stepColumns rest rng2 trng2).map fun x => (c2 :: x.1, x.2.1, x.2.2)

/-- `MatrixWaterFall::step(&mut self, rand)`. -/
def MatrixWaterFall.step (w : MatrixWaterFall) (rng trng : Rng) :
    Option (MatrixWaterFall × Rng × Rng) :=
  (stepColumns w.columns rng trng).map fun x => ({ w with columns := x.1 }, x.2.1, x.2.2)

/-- The column loop of `MatrixWaterFall::step` generalised to visit the
columns in an arbitrary index order, still threading the two sequential
random sources through the visits in visit order.  Visiting in
`List.range cols.length` order is the code's left-to-right loop. -/
def stepColumnsOrder (cols : List Column) (order : List ℕ) (rng trng : Rng) :
    Option (List Column × Rng × Rng) :=
  match order with
  | [] => some (cols, rng, trng)
  | i :: rest =>
    match cols[i]? with
    | none => none
    | some c =>
      match c.stepRng rng trng with
      | none => none
      | some (c2, rng2, trng2) => stepColumnsOrder (cols.set i c2) rest rng2 trng2

/-- Column updates where the `i`-th column always consumes its own dedicated
draw package `draws i` (instead of a shared sequential source), performed in
an arbitrary visit order. -/
def stepEachAt (cols : List Column) (draws : ℕ → StepDraws) (order : List ℕ) :
    Option (List Column) :=
  match order with
  | [] => some cols
  | i :: rest =>
    match cols[i]? with
    | none => none
    | some c =>
      match c.step (draws i).gate (draws i).coin (draws i).charDraw with
      | none => none
      | some c2 => stepEachAt (cols.set i c2) draws rest

/-! ### Rendering

Terminal output is modelled as a sink accumulating crossterm instructions;
each write (and the flush) can fail, controlled by a failure schedule over
the running write count.  A failed write appends nothing. -/

/-- One queued crossterm instruction. -/
inductive Instr where
  | setBackgroundColor (r g b : ℕ)
  | setForegroundColor (r g b : ℕ)
  | printChar (c : Char)
  | moveTo (x y : ℕ)
  | hideCursor
  | resetColor
  | flushOut
deriving DecidableEq, Repr

/-- The output sink capability: instructions written so far, a failure
schedule, and the running write count. -/
structure Sink where
  written : List Instr
  failAt : ℕ → Bool
  count : ℕ

/-- Write one instruction to the sink; fails according to the schedule. -/
def Sink.emit (s : Sink) (i : Instr) : Except Unit Unit × Sink :=
  if s.failAt s.count then
    (Except.error (), { s with count := s.count + 1 })
  else
    (Except.ok (), { s with written := s.written ++ [i], count := s.count + 1 })

/-- `Glyph::render(&self, out)`: queue black background, the glyph's
foreground colour, then the character; each `queue!` result is propagated
with `?`. -/
def Glyph.render (g : Glyph) (out : Sink) : Except Unit Unit × Sink :=
  match out.emit (Instr.setBackgroundColor 0 0 0) with
  | (Except.error e, out2) => (Except.error e, out2)
  | (Except.ok _, out2) =>
    match out2.emit (Instr.setForegroundColor g.color.r g.color.g g.color.b) with
    | (Except.error e, out3) => (Except.error e, out3)
    | (Except.ok _, out3) =>
      match out3.emit (Instr.printChar g.character) with
      | (Except.error e, out4) => (Except.error e, out4)
      | (Except.ok _, out4) => (Except.ok (), out4)

/-- `Column::render(&self, out, y)`: renders `self.glyphs[y]` but drops the
returned `Result` (the statement `self.glyphs[y as usize].render(out);` has
no `?`) and returns `Ok(())` unconditionally.  Call sites keep
`y < glyphs.len()`, so the indexing is modelled totally with a default. -/
def Column.render (col : Column) (out : Sink) (y : ℕ) : Except Unit Unit × Sink :=
  let r := Glyph.render (col.glyphs.getD y Glyph.empty) out
  (Except.ok (), r.2)

/-- The inner column loop of `MatrixWaterFall::render` at one row, with `?`
on each `column.render` result. -/
def renderColumnsAt (cols : List Column) (y : ℕ) (out : Sink) : Except Unit Unit × Sink :=
  match cols with
  | [] => (Except.ok (), out)
  | c :: rest =>
    match c.render out y with
    | (Except.error e, out2) => (Except.error e, out2)
    | (Except.ok _, out2) => renderColumnsAt rest y out2

/-- The outer row loop of `MatrixWaterFall::render` over the given row
indices. -/
def renderRows (cols : List Column) (ys : List ℕ) (out : Sink) : Except Unit Unit × Sink :=
  match ys with
  | [] => (Except.ok (), out)
  | y :: rest =>
    match renderColumnsAt cols y out with
    | (Except.error e, out2) => (Except.error e, out2)
    | (Except.ok _, out2) => renderRows cols rest out2

/-- `MatrixWaterFall::render(&self, out)`: queue hide-cursor and
move-to-origin (both `queue!` results discarded — no `?`), render all cells
row-major with columns innermost (with `?`), queue reset-colors (with `?`),
then flush (with `?`). -/
def MatrixWaterFall.render (w : MatrixWaterFall) (out : Sink) : Except Unit Unit × Sink :=
  let a := out.emit Instr.hideCursor
  let b := a.2.emit (Instr.moveTo 0 0)
  match renderRows w.columns (List.range w.height) b.2 with
  | (Except.error e, out2) => (Except.error e, out2)
  | (Except.ok _, out2) =>
    match out2.emit Instr.resetColor with
    | (Except.error e, out3) => (Except.error e, out3)
    | (Except.ok _, out3) =>
      match out3.emit Instr.flushOut with
      | (Except.error e, out4) => (Except.error e, out4)
      | (Except.ok _, out4) => (Except.ok (), out4)

/-- The three instructions one cell contributes to a frame. -/
def cellTrace (c : Column) (y : ℕ) : List Instr :=
  [Instr.setBackgroundColor 0 0 0,
   Instr.setForegroundColor (c.glyphs.getD y Glyph.empty).color.r
     (c.glyphs.getD y Glyph.empty).color.g (c.glyphs.getD y Glyph.empty).color.b,
   Instr.printChar (c.glyphs.getD y Glyph.empty).character]

/-- `n` repeated applications of `Glyph::fade_color`. -/
def fadeN (gl : Glyph) : ℕ → Glyph
  | 0 => gl
  | n + 1 => Glyph.fade_color (fadeN gl n)

/-! ### Concrete fixtures used by counterexamples and witnesses -/

/-- The known glyph of the spec's 1x1 render scenario. -/
def glyphA : Glyph := ⟨'A', HexColor.rgb 10 20 30⟩

/-- A 1-cell column holding `glyphA`. -/
def columnA : Column := ⟨1, HexColor.rgb 0 150 255, [glyphA], 0⟩

/-- The 1x1 waterfall of the spec's render scenario. -/
def waterfall1 : MatrixWaterFall := ⟨1, 1, HexColor.rgb 0 150 255, [columnA]⟩

/-- A sink that never fails. -/
def sinkOk : Sink := ⟨[], fun _ => false, 0⟩

/-- A sink whose `j`-th write fails. -/
def sinkFailAt (j : ℕ) : Sink := ⟨[], fun n => decide (n = j), 0⟩

/-- A fresh height-2 column (head at the top). -/
def cexColTop : Column := Column.new 2 spawnColor1

/-- A height-2 column whose head has advanced to row 1. -/
def cexColMid : Column := { Column.new 2 spawnColor1 with active_index := 1 }

/-- A concrete main random source: first raw draw 990, every later draw 0. -/
def cexRng : Rng := ⟨fun n => if n = 0 then 990 else 0, 0⟩

/-- A concrete thread-local random source: all raw draws 0. -/
def cexTrng : Rng := ⟨fun _ => 0, 0⟩

/-! ## Lemmas: colour arithmetic -/

theorem qclamp01_nonneg (x : ℚ) : 0 ≤ qclamp x 0 1 :=
  le_min (le_max_right x 0) (by norm_num)

theorem qclamp01_le_one (x : ℚ) : qclamp x 0 1 ≤ 1 := min_le_right _ _

theorem qclamp01_eq_self {x : ℚ} (h0 : 0 ≤ x) (h1 : x ≤ 1) : qclamp x 0 1 = x := by
  unfold qclamp
  rw [max_eq_left h0, min_eq_left h1]

theorem max_div255 (a b : ℚ) : max (a / 255) (b / 255) = max a b / 255 := by
  rcases le_total a b with h | h
  · rw [max_eq_right h, max_eq_right ((div_le_div_right (by norm_num : (0:ℚ) < 255)).mpr h)]
  · rw [max_eq_left h, max_eq_left ((div_le_div_right (by norm_num : (0:ℚ) < 255)).mpr h)]

theorem min_div255 (a b : ℚ) : min (a / 255) (b / 255) = min a b / 255 := by
  rcases le_total a b with h | h
  · rw [min_eq_left h, min_eq_left ((div_le_div_right (by norm_num : (0:ℚ) < 255)).mpr h)]
  · rw [min_eq_right h, min_eq_right ((div_le_div_right (by norm_num : (0:ℚ) < 255)).mpr h)]

theorem maxOf_channels (c : HexColor) :
    maxOf ((c.r : ℚ) / 255) ((c.g : ℚ) / 255) ((c.b : ℚ) / 255) = (maxChan c : ℚ) / 255 := by
  unfold maxOf maxChan
  rw [max_div255, max_div255]
  push_cast
  ring_nf

theorem minOf_channels (c : HexColor) :
    minOf ((c.r : ℚ) / 255) ((c.g : ℚ) / 255) ((c.b : ℚ) / 255) = (minChan c : ℚ) / 255 := by
  unfold minOf minChan
  rw [min_div255, min_div255]
  push_cast
  ring_nf

theorem lightness_eq (c : HexColor) :
    lightness c = ((maxChan c : ℚ) + (minChan c : ℚ)) / 510 := by
  unfold lightness hslFromRgb lightnessOf
  simp only
  rw [maxOf_channels, minOf_channels]
  ring

theorem maxChan_le (c : HexColor) (hv : validColor c) : maxChan c ≤ 255 := by
  obtain ⟨h1, h2, h3⟩ := hv
  exact max_le h1 (max_le h2 h3)

theorem minChan_le_maxChan (c : HexColor) : minChan c ≤ maxChan c :=
  le_trans (min_le_left _ _) (le_max_left _ _)

theorem minChan_le (c : HexColor) (hv : validColor c) : minChan c ≤ 255 :=
  (minChan_le_maxChan c).trans (maxChan_le c hv)

theorem lightness_nonneg (c : HexColor) : 0 ≤ lightness c := by
  rw [lightness_eq]
  positivity

theorem lightness_le_one (c : HexColor) (hv : validColor c) : lightness c ≤ 1 := by
  rw [lightness_eq, div_le_one (by norm_num : (0:ℚ) < 510)]
  have h1 : (maxChan c : ℚ) ≤ 255 := by exact_mod_cast maxChan_le c hv
  have h2 : (minChan c : ℚ) ≤ 255 := by exact_mod_cast minChan_le c hv
  linarith

theorem abs_two_lightness_sub_one_le (c : HexColor) (hv : validColor c) :
    |2 * lightness c - 1| ≤ 1 := by
  have h0 := lightness_nonneg c
  have h1 := lightness_le_one c hv
  rw [abs_le]
  constructor <;> linarith

theorem saturation_eq (c : HexColor) :
    saturation c = saturationOf ((c.r : ℚ) / 255) ((c.g : ℚ) / 255) ((c.b : ℚ) / 255) := rfl

theorem lightnessOf_channels (c : HexColor) :
    lightnessOf ((c.r : ℚ) / 255) ((c.g : ℚ) / 255) ((c.b : ℚ) / 255) = lightness c := rfl

theorem chromaOf_nonneg (r g b : ℚ) : 0 ≤ chromaOf r g b := by
  unfold chromaOf maxOf minOf
  have : min r (min g b) ≤ max r (max g b) := (min_le_left _ _).trans (le_max_left _ _)
  linarith

theorem saturation_nonneg (c : HexColor) (hv : validColor c) : 0 ≤ saturation c := by
  rw [saturation_eq]
  unfold saturationOf
  split
  · exact le_refl 0
  · apply div_nonneg (chromaOf_nonneg _ _ _)
    have habs : |2 * lightnessOf ((c.r : ℚ) / 255) ((c.g : ℚ) / 255) ((c.b : ℚ) / 255) - 1| ≤ 1 := by
      rw [lightnessOf_channels]
      exact abs_two_lightness_sub_one_le c hv
    linarith

theorem hslChroma_nonneg (hsl : Hsl) (hs0 : 0 ≤ hsl.saturation)
    (habs : |2 * hsl.lightness - 1| ≤ 1) : 0 ≤ hslChroma hsl :=
  mul_nonneg (by linarith) hs0

theorem hslChroma_le_two_l (hsl : Hsl) (hs1 : hsl.saturation ≤ 1)
    (habs : |2 * hsl.lightness - 1| ≤ 1) : hslChroma hsl ≤ 2 * hsl.lightness := by
  have h1 : -(2 * hsl.lightness - 1) ≤ |2 * hsl.lightness - 1| := neg_le_abs _
  have h2 : hslChroma hsl ≤ 1 - |2 * hsl.lightness - 1| :=
    mul_le_of_le_one_right (by linarith) hs1
  linarith

theorem hslChroma_le_two_sub (hsl : Hsl) (hs1 : hsl.saturation ≤ 1)
    (habs : |2 * hsl.lightness - 1| ≤ 1) : hslChroma hsl ≤ 2 - 2 * hsl.lightness := by
  have h1 : 2 * hsl.lightness - 1 ≤ |2 * hsl.lightness - 1| := le_abs_self _
  have h2 : hslChroma hsl ≤ 1 - |2 * hsl.lightness - 1| :=
    mul_le_of_le_one_right (by linarith) hs1
  linarith

theorem hslBase_nonneg (hsl : Hsl) (hs1 : hsl.saturation ≤ 1)
    (habs : |2 * hsl.lightness - 1| ≤ 1) : 0 ≤ hslBase hsl := by
  have := hslChroma_le_two_l hsl hs1 habs
  unfold hslBase
  linarith

theorem hslBase_add_chroma_le_one (hsl : Hsl) (hs1 : hsl.saturation ≤ 1)
    (habs : |2 * hsl.lightness - 1| ≤ 1) : hslBase hsl + hslChroma hsl ≤ 1 := by
  have := hslChroma_le_two_sub hsl hs1 habs
  unfold hslBase
  linarith

theorem hslX_nonneg (hsl : Hsl) (hc0 : 0 ≤ hslChroma hsl) : 0 ≤ hslX hsl := by
  unfold hslX
  have h1 : (⌊hueSector hsl / 2⌋ : ℚ) ≤ hueSector hsl / 2 := Int.floor_le _
  have h2 : hueSector hsl / 2 < ⌊hueSector hsl / 2⌋ + 1 := Int.lt_floor_add_one _
  have habs : |hueSector hsl - 2 * ⌊hueSector hsl / 2⌋ - 1| ≤ 1 := by
    rw [abs_le]
    constructor <;> linarith
  exact mul_nonneg hc0 (by linarith)

theorem hslX_le_chroma (hsl : Hsl) (hc0 : 0 ≤ hslChroma hsl) : hslX hsl ≤ hslChroma hsl := by
  unfold hslX
  have habs : 0 ≤ |hueSector hsl - 2 * ⌊hueSector hsl / 2⌋ - 1| := abs_nonneg _
  exact mul_le_of_le_one_right hc0 (by linarith)

theorem rgbFromHsl_mem (hsl : Hsl) (hs0 : 0 ≤ hsl.saturation) (hs1 : hsl.saturation ≤ 1)
    (habs : |2 * hsl.lightness - 1| ≤ 1) :
    ((rgbFromHsl hsl).1 ≤ hslBase hsl + hslChroma hsl ∧
     (rgbFromHsl hsl).2.1 ≤ hslBase hsl + hslChroma hsl ∧
     (rgbFromHsl hsl).2.2 ≤ hslBase hsl + hslChroma hsl) ∧
    (hslBase hsl ≤ (rgbFromHsl hsl).1 ∧ hslBase hsl ≤ (rgbFromHsl hsl).2.1 ∧
     hslBase hsl ≤ (rgbFromHsl hsl).2.2) ∧
    ((rgbFromHsl hsl).1 = hslBase hsl ∨ (rgbFromHsl hsl).2.1 = hslBase hsl ∨
     (rgbFromHsl hsl).2.2 = hslBase hsl) := by
  have hc0 : 0 ≤ hslChroma hsl := hslChroma_nonneg hsl hs0 habs
  have hx0 : 0 ≤ hslX hsl := hslX_nonneg hsl hc0
  have hxc : hslX hsl ≤ hslChroma hsl := hslX_le_chroma hsl hc0
  unfold rgbFromHsl
  split_ifs <;> dsimp only <;>
    refine ⟨⟨by linarith, by linarith, by linarith⟩,
      ⟨by linarith, by linarith, by linarith⟩, ?_⟩
  · exact Or.inr (Or.inr rfl)
  · exact Or.inr (Or.inr rfl)
  · exact Or.inl rfl
  · exact Or.inl rfl
  · exact Or.inr (Or.inl rfl)
  · exact Or.inr (Or.inl rfl)

theorem u8cast_le_255 (x : ℚ) : u8cast x ≤ 255 := min_le_left _ _

theorem u8cast_cast_le (v : ℚ) (hv : 0 ≤ v) : (u8cast (v * 255) : ℚ) ≤ 255 * v := by
  unfold u8cast
  have h0 : (0:ℤ) ≤ ⌊v * 255⌋ := Int.floor_nonneg.mpr (by positivity)
  have h2 : ((Int.toNat ⌊v * 255⌋ : ℕ) : ℚ) = ((⌊v * 255⌋ : ℤ) : ℚ) := by
    exact_mod_cast congrArg (fun z : ℤ => (z : ℚ)) (Int.toNat_of_nonneg h0)
  calc ((min 255 (Int.toNat ⌊v * 255⌋) : ℕ) : ℚ)
      ≤ ((Int.toNat ⌊v * 255⌋ : ℕ) : ℚ) := by exact_mod_cast min_le_right 255 (Int.toNat ⌊v * 255⌋)
    _ = ((⌊v * 255⌋ : ℤ) : ℚ) := h2
    _ ≤ v * 255 := Int.floor_le _
    _ = 255 * v := by ring

theorem fadeHsl_saturation (c : HexColor) :
    (fadeHsl c).saturation = qclamp (saturation c * (9 / 10)) 0 1 := rfl

theorem fadeHsl_lightness (c : HexColor) :
    (fadeHsl c).lightness = qclamp (lightness c * (93 / 100)) 0 1 := rfl

theorem fadeColorRGB_r (c : HexColor) :
    (fadeColorRGB c).r = u8cast ((rgbFromHsl (fadeHsl c)).1 * 255) := rfl

theorem fadeColorRGB_g (c : HexColor) :
    (fadeColorRGB c).g = u8cast ((rgbFromHsl (fadeHsl c)).2.1 * 255) := rfl

theorem fadeColorRGB_b (c : HexColor) :
    (fadeColorRGB c).b = u8cast ((rgbFromHsl (fadeHsl c)).2.2 * 255) := rfl

theorem fade_valid (c : HexColor) : validColor (fadeColorRGB c) :=
  ⟨u8cast_le_255 _, u8cast_le_255 _, u8cast_le_255 _⟩

theorem fadeHsl_lightness_eq (c : HexColor) (hv : validColor c) :
    (fadeHsl c).lightness = (93 / 100) * lightness c := by
  rw [fadeHsl_lightness, qclamp01_eq_self, mul_comm]
  · exact mul_nonneg (lightness_nonneg c) (by norm_num)
  · have := lightness_le_one c hv
    have := lightness_nonneg c
    nlinarith

theorem fadeHsl_abs_lightness (c : HexColor) : |2 * (fadeHsl c).lightness - 1| ≤ 1 := by
  have h0 := qclamp01_nonneg (lightness c * (93 / 100))
  have h1 := qclamp01_le_one (lightness c * (93 / 100))
  rw [fadeHsl_lightness]
  rw [abs_le]
  constructor <;> linarith

theorem fade_sum_bound (c : HexColor) (hv : validColor c) :
    ((maxChan (fadeColorRGB c) : ℚ) + (minChan (fadeColorRGB c) : ℚ)) ≤
      (93 / 100) * ((maxChan c : ℚ) + (minChan c : ℚ)) := by
  have hs0 : 0 ≤ (fadeHsl c).saturation := qclamp01_nonneg _
  have hs1 : (fadeHsl c).saturation ≤ 1 := qclamp01_le_one _
  have habs : |2 * (fadeHsl c).lightness - 1| ≤ 1 := fadeHsl_abs_lightness c
  obtain ⟨⟨hu1, hu2, hu3⟩, ⟨hl1, hl2, hl3⟩, hbase⟩ := rgbFromHsl_mem (fadeHsl c) hs0 hs1 habs
  have hb0 : 0 ≤ hslBase (fadeHsl c) := hslBase_nonneg _ hs1 habs
  have hc0 : 0 ≤ hslChroma (fadeHsl c) := hslChroma_nonneg _ hs0 habs
  -- every produced channel value is at most 255 * (base + chroma)
  have key : ∀ v : ℚ, hslBase (fadeHsl c) ≤ v → v ≤ hslBase (fadeHsl c) + hslChroma (fadeHsl c) →
      (u8cast (v * 255) : ℚ) ≤ 255 * (hslBase (fadeHsl c) + hslChroma (fadeHsl c)) := by
    intro v h1 h2
    refine (u8cast_cast_le v (hb0.trans h1)).trans ?_
    nlinarith
  have hmax : (maxChan (fadeColorRGB c) : ℚ) ≤
      255 * (hslBase (fadeHsl c) + hslChroma (fadeHsl c)) := by
    unfold maxChan
    rw [fadeColorRGB_r, fadeColorRGB_g, fadeColorRGB_b]
    push_cast
    exact max_le (key _ hl1 hu1) (max_le (key _ hl2 hu2) (key _ hl3 hu3))
  have hmin : (minChan (fadeColorRGB c) : ℚ) ≤ 255 * hslBase (fadeHsl c) := by
    have hminle : ∀ v : ℚ, v = hslBase (fadeHsl c) →
        (u8cast (v * 255) : ℚ) ≤ 255 * hslBase (fadeHsl c) := by
      intro v h
      subst h
      exact u8cast_cast_le _ hb0
    unfold minChan
    rw [fadeColorRGB_r, fadeColorRGB_g, fadeColorRGB_b]
    push_cast
    rcases hbase with h | h | h
    · exact (min_le_left _ _).trans (hminle _ h)
    · exact ((min_le_right _ _).trans (min_le_left _ _)).trans (hminle _ h)
    · exact ((min_le_right _ _).trans (min_le_right _ _)).trans (hminle _ h)
  have hsum : 2 * hslBase (fadeHsl c) + hslChroma (fadeHsl c) = 2 * (fadeHsl c).lightness := by
    unfold hslBase
    ring
  have hlval : (fadeHsl c).lightness = (93 / 100) * lightness c := fadeHsl_lightness_eq c hv
  have hlq : lightness c = ((maxChan c : ℚ) + (minChan c : ℚ)) / 510 := lightness_eq c
  have : (maxChan (fadeColorRGB c) : ℚ) + (minChan (fadeColorRGB c) : ℚ) ≤
      255 * (2 * hslBase (fadeHsl c) + hslChroma (fadeHsl c)) := by linarith
  rw [hsum, hlval, hlq] at this
  linarith

theorem fade_lightness_le (c : HexColor) (hv : validColor c) :
    lightness (fadeColorRGB c) ≤ (93 / 100) * lightness c := by
  rw [lightness_eq, lightness_eq]
  have := fade_sum_bound c hv
  linarith

theorem fadeHsl_saturation_le (c : HexColor) (hv : validColor c) :
    (fadeHsl c).saturation ≤ saturation c := by
  have hs0 := saturation_nonneg c hv
  rw [fadeHsl_saturation]
  calc qclamp (saturation c * (9 / 10)) 0 1
      ≤ max (saturation c * (9 / 10)) 0 := min_le_left _ _
    _ = saturation c * (9 / 10) := max_eq_left (by positivity)
    _ ≤ saturation c := by linarith

/-! ## Lemmas: concrete colour evaluations -/

theorem u8cast_eq (x : ℚ) (n : ℕ) (h1 : (n : ℚ) ≤ x) (h2 : x < n + 1) (h3 : n ≤ 255) :
    u8cast x = n := by
  unfold u8cast
  have hf : ⌊x⌋ = (n : ℤ) := by
    rw [Int.floor_eq_iff]
    constructor
    · exact_mod_cast h1
    · push_cast
      exact_mod_cast h2
  rw [hf]
  simp
  omega

theorem fadeColorRGB_black : fadeColorRGB (HexColor.rgb 0 0 0) = HexColor.rgb 0 0 0 := by
  norm_num [fadeColorRGB, fadeHsl, hslFromRgb, hueOf, saturationOf, lightnessOf,
    chromaOf, maxOf, minOf, qclamp, HexColor.rgb, rgbFromHsl, hueSector, hslChroma,
    hslBase, hslX, u8cast]

theorem fade_color_empty : Glyph.fade_color Glyph.empty = Glyph.empty := by
  simp [Glyph.fade_color, Glyph.empty, fadeColorRGB_black]

theorem hsl_of_211 : hslFromRgb (2 / 255) (1 / 255) (1 / 255) = ⟨0, 1 / 3, 1 / 170⟩ := by
  have hmax : maxOf (2 / 255 : ℚ) (1 / 255) (1 / 255) = 2 / 255 := by norm_num [maxOf, max_def]
  have hmin : minOf (2 / 255 : ℚ) (1 / 255) (1 / 255) = 1 / 255 := by norm_num [minOf, min_def]
  unfold hslFromRgb hueOf saturationOf lightnessOf chromaOf
  rw [hmax, hmin]
  rw [show |2 * ((2 / 255 + 1 / 255) / 2 : ℚ) - 1| = 84 / 85 by rw [abs_of_nonpos] <;> norm_num]
  norm_num

theorem rgb_of_faded_211 :
    rgbFromHsl ⟨0, 3 / 10, 93 / 17000⟩ = (1209 / 170000, 651 / 170000, 651 / 170000) := by
  have hch : hslChroma ⟨0, 3 / 10, 93 / 17000⟩ = 279 / 85000 := by
    unfold hslChroma
    simp only
    rw [show |2 * (93 / 17000 : ℚ) - 1| = 8407 / 8500 by rw [abs_of_nonpos] <;> norm_num]
    norm_num
  have hsec : hueSector ⟨0, 3 / 10, 93 / 17000⟩ = 0 := by norm_num [hueSector]
  have hx : hslX ⟨0, 3 / 10, 93 / 17000⟩ = 0 := by
    unfold hslX
    rw [hsec]
    norm_num
  unfold rgbFromHsl hslBase
  rw [hch, hsec, hx]
  norm_num

theorem fadeHsl_211 : fadeHsl (HexColor.rgb 2 1 1) = ⟨0, 3 / 10, 93 / 17000⟩ := by
  unfold fadeHsl
  rw [show ((HexColor.rgb 2 1 1).r : ℚ) / 255 = 2 / 255 by norm_num [HexColor.rgb]]
  rw [show ((HexColor.rgb 2 1 1).g : ℚ) / 255 = 1 / 255 by norm_num [HexColor.rgb]]
  rw [show ((HexColor.rgb 2 1 1).b : ℚ) / 255 = 1 / 255 by norm_num [HexColor.rgb]]
  rw [hsl_of_211]
  norm_num [qclamp, max_def, min_def]

theorem fade_211 : fadeColorRGB (HexColor.rgb 2 1 1) = HexColor.rgb 1 0 0 := by
  unfold fadeColorRGB
  rw [fadeHsl_211, rgb_of_faded_211]
  simp only
  rw [u8cast_eq (1209 / 170000 * 255) 1 (by norm_num) (by norm_num) (by norm_num)]
  rw [u8cast_eq (651 / 170000 * 255) 0 (by norm_num) (by norm_num) (by norm_num)]
  rfl

theorem sat_211 : saturation (HexColor.rgb 2 1 1) = 1 / 3 := by
  rw [saturation_eq]
  rw [show ((HexColor.rgb 2 1 1).r : ℚ) / 255 = 2 / 255 by norm_num [HexColor.rgb]]
  rw [show ((HexColor.rgb 2 1 1).g : ℚ) / 255 = 1 / 255 by norm_num [HexColor.rgb]]
  rw [show ((HexColor.rgb 2 1 1).b : ℚ) / 255 = 1 / 255 by norm_num [HexColor.rgb]]
  exact congrArg Hsl.saturation hsl_of_211

theorem sat_100 : saturation (HexColor.rgb 1 0 0) = 1 := by
  rw [saturation_eq]
  have hmax : maxOf ((1 : ℚ) / 255) (0 / 255) (0 / 255) = 1 / 255 := by norm_num [maxOf, max_def]
  have hmin : minOf ((1 : ℚ) / 255) (0 / 255) (0 / 255) = 0 := by norm_num [minOf, min_def]
  rw [show ((HexColor.rgb 1 0 0).r : ℚ) / 255 = 1 / 255 by norm_num [HexColor.rgb]]
  rw [show ((HexColor.rgb 1 0 0).g : ℚ) / 255 = 0 / 255 by norm_num [HexColor.rgb]]
  rw [show ((HexColor.rgb 1 0 0).b : ℚ) / 255 = 0 / 255 by norm_num [HexColor.rgb]]
  unfold saturationOf lightnessOf chromaOf
  rw [hmax, hmin]
  rw [show |2 * ((1 / 255 + 0 : ℚ) / 2) - 1| = 254 / 255 by rw [abs_of_nonpos] <;> norm_num]
  norm_num

/-! ## Lemmas: repeated fading reaches black -/

theorem sum_fade_lt (c : HexColor) (hv : validColor c)
    (h1 : 1 ≤ maxChan c + minChan c) :
    maxChan (fadeColorRGB c) + minChan (fadeColorRGB c) < maxChan c + minChan c := by
  have hq := fade_sum_bound c hv
  have h1q : (1 : ℚ) ≤ (maxChan c : ℚ) + (minChan c : ℚ) := by exact_mod_cast h1
  have : ((maxChan (fadeColorRGB c) : ℕ) : ℚ) + ((minChan (fadeColorRGB c) : ℕ) : ℚ) <
      ((maxChan c : ℕ) : ℚ) + ((minChan c : ℕ) : ℚ) := by linarith
  exact_mod_cast this

theorem sum_zero_black (c : HexColor) (h : maxChan c + minChan c = 0) :
    c = HexColor.rgb 0 0 0 := by
  have hM : maxChan c = 0 := by omega
  have hr : c.r = 0 := Nat.le_zero.mp (hM ▸ le_max_left _ _)
  have hg : c.g = 0 := Nat.le_zero.mp (hM ▸ le_trans (le_max_left _ _) (le_max_right _ _))
  have hb : c.b = 0 := Nat.le_zero.mp (hM ▸ le_trans (le_max_right _ _) (le_max_right _ _))
  rcases c with ⟨r, g, b⟩
  simp only at hr hg hb
  rw [hr, hg, hb]
  rfl

theorem fadeN_shift (gl : Glyph) : ∀ m, fadeN gl (m + 1) = fadeN (Glyph.fade_color gl) m
  | 0 => rfl
  | m + 1 => by
    show Glyph.fade_color (fadeN gl (m + 1)) = Glyph.fade_color (fadeN (Glyph.fade_color gl) m)
    rw [fadeN_shift gl m]

theorem fadeN_black (gl : Glyph) (h : gl.color = HexColor.rgb 0 0 0) :
    ∀ n, (fadeN gl n).color = HexColor.rgb 0 0 0 := by
  intro n
  induction n with
  | zero => exact h
  | succ n ih =>
    show (Glyph.fade_color (fadeN gl n)).color = HexColor.rgb 0 0 0
    show fadeColorRGB (fadeN gl n).color = HexColor.rgb 0 0 0
    rw [ih, fadeColorRGB_black]

theorem fadeN_valid (gl : Glyph) (hv : validColor gl.color) :
    ∀ n, validColor (fadeN gl n).color := by
  intro n
  induction n with
  | zero => exact hv
  | succ n _ => exact fade_valid _

theorem reach_black : ∀ k (gl : Glyph), validColor gl.color →
    maxChan gl.color + minChan gl.color ≤ k →
    ∃ N, ∀ n, N ≤ n → (fadeN gl n).color = HexColor.rgb 0 0 0 := by
  intro k
  induction k with
  | zero =>
    intro gl hv hk
    exact ⟨0, fun n _ => fadeN_black gl (sum_zero_black _ (Nat.le_zero.mp hk)) n⟩
  | succ k ih =>
    intro gl hv hk
    by_cases h0 : maxChan gl.color + minChan gl.color = 0
    · exact ⟨0, fun n _ => fadeN_black gl (sum_zero_black _ h0) n⟩
    · have h1 : 1 ≤ maxChan gl.color + minChan gl.color := Nat.one_le_iff_ne_zero.mpr h0
      have hlt := sum_fade_lt gl.color hv h1
      obtain ⟨N, hN⟩ := ih (Glyph.fade_color gl) (fade_valid _) (by
        show maxChan (fadeColorRGB gl.color) + minChan (fadeColorRGB gl.color) ≤ k
        omega)
      refine ⟨N + 1, fun n hn => ?_⟩
      obtain ⟨m, rfl⟩ : ∃ m, n = m + 1 := ⟨n - 1, by omega⟩
      rw [fadeN_shift]
      exact hN m (by omega)

/-! ## Lemmas: column stepping -/

theorem step_gated (col : Column) (gate : ℚ) (coin : Bool) (i : ℕ)
    (h0 : col.active_index = 0) (hg : gate > 1 / 10) :
    col.step gate coin i = some col := by
  unfold Column.step
  rw [if_pos ⟨h0, hg⟩]

theorem not_gating (col : Column) (gate : ℚ)
    (hng : col.active_index ≠ 0 ∨ gate ≤ 1 / 10) :
    ¬(col.active_index = 0 ∧ gate > 1 / 10) := by
  rintro ⟨h1, h2⟩
  rcases hng with h | h
  · exact h h1
  · linarith

theorem step_nongated (col : Column) (gate : ℚ) (coin : Bool) (i : ℕ)
    (hng : col.active_index ≠ 0 ∨ gate ≤ 1 / 10)
    (hlen : col.active_index < col.glyphs.length) :
    col.step gate coin i = some { col with
      glyphs := (col.glyphs.map Glyph.fade_color).set col.active_index
        (Glyph.new_random i (choose_random spawnColor1 spawnColor2 coin)),
      active_index :=
        if col.active_index + 1 ≥ col.height then 0 else col.active_index + 1 } := by
  unfold Column.step
  rw [if_neg (not_gating col gate hng)]
  have hlen2 : col.active_index < (col.glyphs.map Glyph.fade_color).length := by
    rw [List.length_map]
    exact hlen
  rw [if_pos hlen2]

theorem step_wf (col : Column) (gate : ℚ) (coin : Bool) (i : ℕ) (hwf : ColumnWF col) :
    ∃ col2, col.step gate coin i = some col2 ∧ ColumnWF col2 ∧
      col2.height = col.height := by
  by_cases hgate : col.active_index = 0 ∧ gate > 1 / 10
  · exact ⟨col, step_gated col gate coin i hgate.1 hgate.2, hwf, rfl⟩
  · have hng : col.active_index ≠ 0 ∨ gate ≤ 1 / 10 := by
      by_contra h
      push_neg at h
      exact hgate ⟨h.1, h.2⟩
    have hlen : col.active_index < col.glyphs.length := by
      rw [hwf.2]
      exact hwf.1
    refine ⟨_, step_nongated col gate coin i hng hlen, ⟨?_, ?_⟩, rfl⟩
    · dsimp only
      split
      · exact lt_of_le_of_lt (Nat.zero_le _) hwf.1
      · omega
    · dsimp only
      rw [List.length_set, List.length_map]
      exact hwf.2

theorem step_active_mod (col : Column) (gate : ℚ) (coin : Bool) (i : ℕ)
    (hwf : ColumnWF col) (hng : col.active_index ≠ 0 ∨ gate ≤ 1 / 10) :
    ∃ col2, col.step gate coin i = some col2 ∧
      col2.active_index = (col.active_index + 1) % col.height ∧
      col2.height = col.height ∧ ColumnWF col2 := by
  have hlen : col.active_index < col.glyphs.length := by
    rw [hwf.2]
    exact hwf.1
  refine ⟨_, step_nongated col gate coin i hng hlen, ?_, rfl, ?_, ?_⟩
  · dsimp only
    rcases Nat.lt_or_ge (col.active_index + 1) col.height with h | h
    · rw [if_neg (by omega), Nat.mod_eq_of_lt h]
    · have heq : col.active_index + 1 = col.height := by
        have := hwf.1
        omega
      rw [if_pos (by omega), heq, Nat.mod_self]
  · dsimp only
    split
    · exact lt_of_le_of_lt (Nat.zero_le _) hwf.1
    · omega
  · dsimp only
    rw [List.length_set, List.length_map]
    exact hwf.2

theorem stepN_active (col : Column) (draws : ℕ → StepDraws) (hwf : ColumnWF col)
    (hg : ∀ k, (draws k).gate ≤ 1 / 10) :
    ∀ k, ∃ col2, col.stepN draws k = some col2 ∧
      col2.active_index = (col.active_index + k) % col.height ∧
      col2.height = col.height ∧ ColumnWF col2 := by
  intro k
  induction k with
  | zero =>
    refine ⟨col, rfl, ?_, rfl, hwf⟩
    rw [Nat.add_zero, Nat.mod_eq_of_lt hwf.1]
  | succ k ih =>
    obtain ⟨ck, hck, hact, hh, hwfk⟩ := ih
    have hstep : col.stepN draws (k + 1) =
        ck.step (draws k).gate (draws k).coin (draws k).charDraw := by
      show (match col.stepN draws k with
        | none => none
        | some c => c.step (draws k).gate (draws k).coin (draws k).charDraw) = _
      rw [hck]
    obtain ⟨c2, hc2, hact2, hh2, hwf2⟩ :=
      step_active_mod ck (draws k).gate (draws k).coin (draws k).charDraw hwfk
        (Or.inr (hg k))
    refine ⟨c2, ?_, ?_, ?_, hwf2⟩
    · rw [hstep, hc2]
    · rw [hact2, hact, hh, Nat.mod_add_mod, Nat.add_assoc]
    · rw [hh2, hh]

/-! ## Lemmas: order of column updates under per-column draws -/

theorem stepEachAt_swap (cols : List Column) (draws : ℕ → StepDraws) (i j : ℕ)
    (rest : List ℕ) (hij : i ≠ j) :
    stepEachAt cols draws (i :: j :: rest) = stepEachAt cols draws (j :: i :: rest) := by
  cases hi : cols[i]? with
  | none =>
    cases hj : cols[j]? with
    | none => simp [stepEachAt, hi, hj]
    | some cj =>
      cases hsj : cj.step (draws j).gate (draws j).coin (draws j).charDraw with
      | none => simp [stepEachAt, hi, hj, hsj]
      | some b =>
        simp [stepEachAt, hi, hj, hsj, List.getElem?_set_ne (Ne.symm hij)]
  | some ci =>
    cases hsi : ci.step (draws i).gate (draws i).coin (draws i).charDraw with
    | none =>
      cases hj : cols[j]? with
      | none => simp [stepEachAt, hi, hj, hsi]
      | some cj =>
        cases hsj : cj.step (draws j).gate (draws j).coin (draws j).charDraw with
        | none => simp [stepEachAt, hi, hj, hsi, hsj]
        | some b =>
          simp [stepEachAt, hi, hj, hsi, hsj, List.getElem?_set_ne (Ne.symm hij)]
    | some a =>
      cases hj : cols[j]? with
      | none => simp [stepEachAt, hi, hj, hsi, List.getElem?_set_ne hij]
      | some cj =>
        cases hsj : cj.step (draws j).gate (draws j).coin (draws j).charDraw with
        | none => simp [stepEachAt, hi, hj, hsi, hsj, List.getElem?_set_ne hij,
            List.getElem?_set_ne (Ne.symm hij)]
        | some b =>
          simp only [stepEachAt, hi, hj, hsi, hsj, List.getElem?_set_ne hij,
            List.getElem?_set_ne (Ne.symm hij)]
          rw [List.set_comm _ _ _ hij]

theorem stepEachAt_perm (draws : ℕ → StepDraws) :
    ∀ {o1 o2 : List ℕ}, o1.Perm o2 → ∀ cols : List Column,
      stepEachAt cols draws o1 = stepEachAt cols draws o2 := by
  intro o1 o2 hperm
  induction hperm with
  | nil => intro cols; rfl
  | cons x _ ih =>
    intro cols
    cases hx : cols[x]? with
    | none => simp [stepEachAt, hx]
    | some cx =>
      cases hsx : cx.step (draws x).gate (draws x).coin (draws x).charDraw with
      | none => simp [stepEachAt, hx, hsx]
      | some b =>
        simp only [stepEachAt, hx, hsx]
        exact ih _
  | swap x y l =>
    intro cols
    by_cases hxy : y = x
    · rw [hxy]
    · exact stepEachAt_swap cols draws y x l hxy
  | trans _ _ ih1 ih2 =>
    intro cols
    exact (ih1 cols).trans (ih2 cols)

/-! ## Lemmas: the code's left-to-right loop as an order-driven update -/

theorem stepColumnsOrder_map_succ (a : Column) :
    ∀ (order : List ℕ) (l : List Column) (rng trng : Rng),
      stepColumnsOrder (a :: l) (order.map Nat.succ) rng trng =
        (stepColumnsOrder l order rng trng).map fun x => (a :: x.1, x.2.1, x.2.2) := by
  intro order
  induction order with
  | nil => intro l rng trng; rfl
  | cons i rest ih =>
    intro l rng trng
    cases hi : l[i]? with
    | none => simp [stepColumnsOrder, hi]
    | some c =>
      cases hs : c.stepRng rng trng with
      | none => simp [stepColumnsOrder, hi, hs]
      | some x =>
        obtain ⟨c2, rng2, trng2⟩ := x
        simp only [List.map_cons, stepColumnsOrder, List.getElem?_cons_succ, hi, hs]
        exact ih (l.set i c2) rng2 trng2

theorem stepColumns_eq_order (cols : List Column) (rng trng : Rng) :
    stepColumns cols rng trng = stepColumnsOrder cols (List.range cols.length) rng trng := by
  induction cols generalizing rng trng with
  | nil => rfl
  | cons c rest ih =>
    rw [show (c :: rest).length = rest.length + 1 from rfl, List.range_succ_eq_map]
    cases hs : c.stepRng rng trng with
    | none => simp [stepColumns, stepColumnsOrder, hs]
    | some x =>
      obtain ⟨c2, rng2, trng2⟩ := x
      simp only [stepColumns, stepColumnsOrder, List.getElem?_cons_zero, hs]
      rw [show (c :: rest).set 0 c2 = c2 :: rest from rfl]
      rw [stepColumnsOrder_map_succ c2 (List.range rest.length) rest rng2 trng2]
      rw [ih rng2 trng2]

/-! ## Lemmas: render traces on a non-failing sink -/

theorem glyph_render_ok (g : Glyph) (l : List Instr) (k : ℕ) :
    g.render ⟨l, fun _ => false, k⟩ =
      (Except.ok (), ⟨l ++ [Instr.setBackgroundColor 0 0 0,
        Instr.setForegroundColor g.color.r g.color.g g.color.b,
        Instr.printChar g.character], fun _ => false, k + 3⟩) := by
  simp [Glyph.render, Sink.emit]

theorem renderColumnsAt_ok (y : ℕ) :
    ∀ (cols : List Column) (l : List Instr) (k : ℕ),
      renderColumnsAt cols y ⟨l, fun _ => false, k⟩ =
        (Except.ok (), ⟨l ++ cols.bind (fun c => cellTrace c y), fun _ => false,
          k + 3 * cols.length⟩) := by
  intro cols
  induction cols with
  | nil => intro l k; simp [renderColumnsAt]
  | cons c rest ih =>
    intro l k
    simp only [renderColumnsAt, Column.render, glyph_render_ok]
    rw [ih]
    simp [cellTrace, List.append_assoc]
    try omega

theorem renderRows_ok (cols : List Column) :
    ∀ (ys : List ℕ) (l : List Instr) (k : ℕ),
      renderRows cols ys ⟨l, fun _ => false, k⟩ =
        (Except.ok (), ⟨l ++ ys.bind (fun y => cols.bind (fun c => cellTrace c y)),
          fun _ => false, k + 3 * cols.length * ys.length⟩) := by
  intro ys
  induction ys with
  | nil => intro l k; simp [renderRows]
  | cons y rest ih =>
    intro l k
    simp only [renderRows, renderColumnsAt_ok]
    rw [ih]
    simp [List.append_assoc]
    try ring

theorem render_ok (w : MatrixWaterFall) (l : List Instr) (k : ℕ) :
    w.render ⟨l, fun _ => false, k⟩ =
      (Except.ok (), ⟨l ++ [Instr.hideCursor, Instr.moveTo 0 0] ++
        ((List.range w.height).bind fun y => w.columns.bind fun c => cellTrace c y) ++
        [Instr.resetColor, Instr.flushOut], fun _ => false,
        k + 2 + 3 * w.columns.length * w.height + 2⟩) := by
  unfold MatrixWaterFall.render
  simp only [Sink.emit, Bool.false_eq_true, if_false]
  rw [renderRows_ok]
  simp [Sink.emit, List.append_assoc, List.length_range]
  try omega

/-! ## Lemmas: random glyph generation -/

theorem new_random_color (d : ℕ) (c : HexColor) : (Glyph.new_random d c).color = c := by
  unfold Glyph.new_random Glyph.new_random?
  cases h : glyphCharacters[randRange d glyphCharacters.length]? <;> simp [h]

theorem glyphCharacters_pos : 0 < glyphCharacters.length := by decide

theorem space_not_in_glyphCharacters : ' ' ∉ glyphCharacters := by decide

/-! ## Claim theorems -/

/-- C1 (amended): for every height ≥ 1, `Column::new` establishes the
invariant `0 ≤ active_index < height` (the lower bound is inherent in the
`ℕ` model), together with `glyphs.len() = height`, and `Column::step`
preserves it on both the gated and the non-gated branch (the step never
panics and returns a column that again satisfies the invariant).  At
height = 0 the invariant fails at construction — see the counterexample. -/
theorem claim_C1 (height : ℕ) (bc : HexColor) (hpos : 0 < height) :
    ColumnWF (Column.new height bc) ∧
    (∀ (col : Column) (gate : ℚ) (coin : Bool) (i : ℕ), ColumnWF col →
      ∃ col2, col.step gate coin i = some col2 ∧ ColumnWF col2) := by
  constructor
  · exact ⟨hpos, by simp [Column.new]⟩
  · intro col gate coin i hwf
    obtain ⟨c2, h1, h2, _⟩ := step_wf col gate coin i hwf
    exact ⟨c2, h1, h2⟩

/-- C1 witness: the amended claim at height 5. -/
theorem claim_C1_witness :
    ColumnWF (Column.new 5 (HexColor.rgb 0 150 255)) ∧
    (∀ (col : Column) (gate : ℚ) (coin : Bool) (i : ℕ), ColumnWF col →
      ∃ col2, col.step gate coin i = some col2 ∧ ColumnWF col2) :=
  claim_C1 5 (HexColor.rgb 0 150 255) (by norm_num)

/-- C1 counterexample: at height = 0, the column produced by `Column::new`
violates `active_index < height` (`0 < 0` is false), so the claim's
"for every height including height = 0" fails. -/
theorem claim_C1_counterexample :
    ¬ ((Column.new 0 (HexColor.rgb 0 150 255)).active_index <
       (Column.new 0 (HexColor.rgb 0 150 255)).height) := by decide

/-- C2 (amended): for a colour with valid 8-bit channels, one `fade_color`
does not increase the pre-quantisation HSL saturation (it is scaled by 0.9
and clamped before conversion back to RGB), does not increase the HSL
lightness of the stored colour, and keeps all channels valid 8-bit values
(the lower bound 0 is inherent in the `ℕ` model).  The claim's statement
that the *stored* (8-bit quantised) colour's saturation never increases is
false — see the counterexample. -/
theorem claim_C2 (gl : Glyph) (hv : validColor gl.color) :
    (fadeHsl gl.color).saturation ≤ saturation gl.color ∧
    lightness ((Glyph.fade_color gl).color) ≤ lightness gl.color ∧
    validColor ((Glyph.fade_color gl).color) := by
  refine ⟨fadeHsl_saturation_le _ hv, ?_, fade_valid _⟩
  have h1 := fade_lightness_le gl.color hv
  have h0 := lightness_nonneg gl.color
  have hc : (Glyph.fade_color gl).color = fadeColorRGB gl.color := rfl
  rw [hc]
  linarith

/-- C2 witness: the amended claim at the glyph ('A', RGB(10,20,30)). -/
theorem claim_C2_witness :
    validColor (Glyph.new 'A' (HexColor.rgb 10 20 30)).color ∧
    ((fadeHsl (Glyph.new 'A' (HexColor.rgb 10 20 30)).color).saturation ≤
      saturation (Glyph.new 'A' (HexColor.rgb 10 20 30)).color ∧
    lightness ((Glyph.fade_color (Glyph.new 'A' (HexColor.rgb 10 20 30))).color) ≤
      lightness (Glyph.new 'A' (HexColor.rgb 10 20 30)).color ∧
    validColor ((Glyph.fade_color (Glyph.new 'A' (HexColor.rgb 10 20 30))).color)) :=
  ⟨by decide, claim_C2 (Glyph.new 'A' (HexColor.rgb 10 20 30)) (by decide)⟩

/-- C2 counterexample: fading RGB(2,1,1) (HSL saturation 1/3) stores
RGB(1,0,0) (HSL saturation 1): 8-bit quantisation of the faded channels can
increase the stored colour's saturation, refuting "fade_color does not
increase the color's HSL saturation" for the stored colour. -/
theorem claim_C2_counterexample :
    ¬ (saturation ((Glyph.fade_color (Glyph.new 'A' (HexColor.rgb 2 1 1))).color) ≤
       saturation (HexColor.rgb 2 1 1)) := by
  have h1 : (Glyph.fade_color (Glyph.new 'A' (HexColor.rgb 2 1 1))).color =
      fadeColorRGB (HexColor.rgb 2 1 1) := rfl
  rw [h1, fade_211, sat_100, sat_211]
  norm_num

/-- C3: a non-gated step on a well-formed column overwrites the glyph at
the old `active_index` with exactly a freshly generated random glyph in the
colour chosen by `choose_random` between the two fixed reference colours
RGB(0,150,255) and RGB(0,255,43); that colour is one of the two references,
not derived from `base_color`, and the overwrite replaces (rather than
fades) the prior occupant since it happens after the uniform fade. -/
theorem claim_C3 (col : Column) (gate : ℚ) (coin : Bool) (i : ℕ)
    (hwf : ColumnWF col) (hng : col.active_index ≠ 0 ∨ gate ≤ 1 / 10) :
    ∃ col2, col.step gate coin i = some col2 ∧
      col2.glyphs[col.active_index]? =
        some (Glyph.new_random i (choose_random spawnColor1 spawnColor2 coin)) ∧
      ((Glyph.new_random i (choose_random spawnColor1 spawnColor2 coin)).color =
          spawnColor1 ∨
       (Glyph.new_random i (choose_random spawnColor1 spawnColor2 coin)).color =
          spawnColor2) := by
  have hlen : col.active_index < col.glyphs.length := by
    rw [hwf.2]
    exact hwf.1
  refine ⟨_, step_nongated col gate coin i hng hlen, ?_, ?_⟩
  · dsimp only
    apply List.getElem?_set_self
    rw [List.length_map]
    exact hlen
  · rw [new_random_color]
    cases coin
    · exact Or.inr (by simp [choose_random])
    · exact Or.inl (by simp [choose_random])

/-- C3 witness: the claim at a height-2 column with head at row 1. -/
theorem claim_C3_witness :
    ColumnWF cexColMid ∧ (cexColMid.active_index ≠ 0 ∨ (1 : ℚ) ≤ 1 / 10) ∧
    (∃ col2, cexColMid.step 1 true 0 = some col2 ∧
      col2.glyphs[cexColMid.active_index]? =
        some (Glyph.new_random 0 (choose_random spawnColor1 spawnColor2 true)) ∧
      ((Glyph.new_random 0 (choose_random spawnColor1 spawnColor2 true)).color =
          spawnColor1 ∨
       (Glyph.new_random 0 (choose_random spawnColor1 spawnColor2 true)).color =
          spawnColor2)) :=
  ⟨by decide, Or.inl (by decide),
    claim_C3 cexColMid 1 true 0 (by decide) (Or.inl (by decide))⟩

/-- C4: with the head at the top (`active_index == 0`), one `Column::step`
either returns the column unchanged (exactly when the draw exceeds 0.1) or
performs exactly the full fade-all-plus-spawn-plus-advance update
(`fullStep`, exactly when the draw is at most 0.1); in particular the step
is always one of the two and no partial update exists. -/
theorem claim_C4 (col : Column) (gate : ℚ) (coin : Bool) (i : ℕ)
    (h0 : col.active_index = 0) :
    (gate > 1 / 10 → col.step gate coin i = some col) ∧
    (gate ≤ 1 / 10 → col.step gate coin i = col.fullStep coin i) ∧
    (col.step gate coin i = some col ∨ col.step gate coin i = col.fullStep coin i) := by
  have hfull : gate ≤ 1 / 10 → col.step gate coin i = col.fullStep coin i := by
    intro hg
    unfold Column.step Column.fullStep
    rw [if_neg (not_gating col gate (Or.inr hg))]
  refine ⟨fun hg => step_gated col gate coin i h0 hg, hfull, ?_⟩
  by_cases hg : gate > 1 / 10
  · exact Or.inl (step_gated col gate coin i h0 hg)
  · exact Or.inr (hfull (le_of_not_lt hg))

/-- C4 witness: the claim at a fresh height-2 column with a gating draw. -/
theorem claim_C4_witness :
    cexColTop.active_index = 0 ∧
    (((1 : ℚ) / 2 > 1 / 10 → cexColTop.step (1 / 2) true 0 = some cexColTop) ∧
     ((1 : ℚ) / 2 ≤ 1 / 10 → cexColTop.step (1 / 2) true 0 = cexColTop.fullStep true 0) ∧
     (cexColTop.step (1 / 2) true 0 = some cexColTop ∨
      cexColTop.step (1 / 2) true 0 = cexColTop.fullStep true 0)) :=
  ⟨rfl, claim_C4 cexColTop (1 / 2) true 0 rfl⟩

/-- C5: on a well-formed column of height H ≥ 1, H consecutive non-gated
steps (every gating draw ≤ 0.1, so no step is gated out) return
`active_index` to its starting value: each non-gated step advances it by
one modulo the height. -/
theorem claim_C5 (col : Column) (draws : ℕ → StepDraws) (hwf : ColumnWF col)
    (hg : ∀ k, (draws k).gate ≤ 1 / 10) :
    ∃ col2, col.stepN draws col.height = some col2 ∧
      col2.active_index = col.active_index := by
  obtain ⟨c2, h1, h2, _, _⟩ := stepN_active col draws hwf hg col.height
  refine ⟨c2, h1, ?_⟩
  rw [h2, Nat.add_mod_right]
  exact Nat.mod_eq_of_lt hwf.1

/-- C5 witness: the claim at a height-2 column with head at row 1 and all
gating draws 0. -/
theorem claim_C5_witness :
    ColumnWF cexColMid ∧
    (∀ k : ℕ, ((fun _ => StepDraws.mk 0 true 0) k).gate ≤ 1 / 10) ∧
    (∃ col2, cexColMid.stepN (fun _ => StepDraws.mk 0 true 0) cexColMid.height =
        some col2 ∧ col2.active_index = cexColMid.active_index) :=
  ⟨by decide, fun _ => by norm_num,
    claim_C5 cexColMid (fun _ => StepDraws.mk 0 true 0) (by decide)
      (fun _ => by norm_num)⟩

/-- C6: starting from a colour with valid 8-bit channels, the HSL lightness
of the iterated fades is monotonically non-increasing, the iterates reach
and stay at the all-black colour (convergence to (0,0,0)), and lightness 0
is a fixed point: fading a lightness-0 colour leaves lightness 0. -/
theorem claim_C6 (gl : Glyph) (hv : validColor gl.color) :
    (∀ n, lightness ((fadeN gl (n + 1)).color) ≤ lightness ((fadeN gl n).color)) ∧
    (∃ N, ∀ n, N ≤ n → (fadeN gl n).color = HexColor.rgb 0 0 0) ∧
    (∀ gl2 : Glyph, lightness gl2.color = 0 →
      lightness ((Glyph.fade_color gl2).color) = 0) := by
  refine ⟨?_, reach_black _ gl hv le_rfl, ?_⟩
  · intro n
    have hvn := fadeN_valid gl hv n
    have h1 := fade_lightness_le (fadeN gl n).color hvn
    have h0 := lightness_nonneg (fadeN gl n).color
    show lightness ((Glyph.fade_color (fadeN gl n)).color) ≤ _
    have hc : (Glyph.fade_color (fadeN gl n)).color = fadeColorRGB (fadeN gl n).color := rfl
    rw [hc]
    linarith
  · intro gl2 h
    have hsum : maxChan gl2.color + minChan gl2.color = 0 := by
      rw [lightness_eq] at h
      have : ((maxChan gl2.color : ℚ) + (minChan gl2.color : ℚ)) = 0 := by
        field_simp at h
        exact_mod_cast h
      exact_mod_cast this
    have hblack := sum_zero_black _ hsum
    have hc : (Glyph.fade_color gl2).color = fadeColorRGB gl2.color := rfl
    rw [hc, hblack, fadeColorRGB_black, lightness_eq]
    norm_num [maxChan, minChan, HexColor.rgb]

/-- C6 witness: the claim at the glyph ('A', RGB(10,20,30)). -/
theorem claim_C6_witness :
    validColor (Glyph.new 'A' (HexColor.rgb 10 20 30)).color ∧
    ((∀ n, lightness ((fadeN (Glyph.new 'A' (HexColor.rgb 10 20 30)) (n + 1)).color) ≤
        lightness ((fadeN (Glyph.new 'A' (HexColor.rgb 10 20 30)) n).color)) ∧
    (∃ N, ∀ n, N ≤ n →
      (fadeN (Glyph.new 'A' (HexColor.rgb 10 20 30)) n).color = HexColor.rgb 0 0 0) ∧
    (∀ gl2 : Glyph, lightness gl2.color = 0 →
      lightness ((Glyph.fade_color gl2).color) = 0)) :=
  ⟨by decide, claim_C6 (Glyph.new 'A' (HexColor.rgb 10 20 30)) (by decide)⟩

/-- C7 (code bug): `Column::render` drops the `Result` of `Glyph::render`
(the statement has no `?`), so a write failure inside an individual glyph's
escape sequence is swallowed: rendering the 1x1 waterfall on a sink whose
third write (the glyph's set-background instruction) fails still returns
`Ok(())`, contradicting the claim that every write failure is propagated.
A flush failure, by contrast, is propagated. -/
theorem claim_C7 :
    (waterfall1.render (sinkFailAt 2)).1 = Except.ok () ∧
    (waterfall1.render (sinkFailAt 6)).1 = Except.error () :=
  ⟨rfl, rfl⟩

/-- C8: rendering the 1x1 waterfall holding ('A', RGB(10,20,30)) on a fresh
non-failing sink writes exactly hide-cursor, move-to-origin,
set-background(0,0,0), set-foreground(10,20,30), print('A'), reset-colors,
flush; and in general a frame is the row-major traversal (rows outer,
columns inner) of the grid between the same prologue and epilogue. -/
theorem claim_C8 :
    ((waterfall1.render sinkOk).2.written =
      [Instr.hideCursor, Instr.moveTo 0 0, Instr.setBackgroundColor 0 0 0,
       Instr.setForegroundColor 10 20 30, Instr.printChar 'A', Instr.resetColor,
       Instr.flushOut] ∧
     (waterfall1.render sinkOk).1 = Except.ok ()) ∧
    (∀ (w : MatrixWaterFall) (l : List Instr) (k : ℕ),
      (w.render ⟨l, fun _ => false, k⟩).1 = Except.ok () ∧
      (w.render ⟨l, fun _ => false, k⟩).2.written =
        l ++ [Instr.hideCursor, Instr.moveTo 0 0] ++
        ((List.range w.height).bind fun y => w.columns.bind fun c => cellTrace c y) ++
        [Instr.resetColor, Instr.flushOut]) := by
  refine ⟨⟨by decide, rfl⟩, ?_⟩
  intro w l k
  rw [render_ok]
  exact ⟨rfl, rfl⟩

/-- C9 (amended): when every column consumes its own dedicated draw package
(columns are independent), updating the columns in any order that is a
permutation of the code's left-to-right index order yields exactly the same
column states.  With the code's single sequentially consumed random source
the resulting state does depend on the order — see the counterexample. -/
theorem claim_C9 (cols : List Column) (draws : ℕ → StepDraws) (order : List ℕ)
    (hperm : order.Perm (List.range cols.length)) :
    stepEachAt cols draws order = stepEachAt cols draws (List.range cols.length) :=
  stepEachAt_perm draws hperm cols

/-- C9 witness: the amended claim on two columns visited right-to-left. -/
theorem claim_C9_witness :
    ([1, 0] : List ℕ).Perm (List.range ([cexColTop, cexColMid] : List Column).length) ∧
    stepEachAt [cexColTop, cexColMid] (fun _ => StepDraws.mk 0 true 0) [1, 0] =
      stepEachAt [cexColTop, cexColMid] (fun _ => StepDraws.mk 0 true 0)
        (List.range ([cexColTop, cexColMid] : List Column).length) :=
  ⟨by decide,
    claim_C9 [cexColTop, cexColMid] (fun _ => StepDraws.mk 0 true 0) [1, 0] (by decide)⟩

/-- C9 counterexample: with the code's shared sequential random sources,
updating the two columns right-to-left produces different column states
(already different `active_index` values) than the code's left-to-right
order, refuting "column update order does not affect the resulting state
for every random source state". -/
theorem claim_C9_counterexample :
    ((stepColumnsOrder [cexColTop, cexColMid] [1, 0] cexRng cexTrng).map
        fun x => x.1.map Column.active_index) ≠
    ((stepColumns [cexColTop, cexColMid] cexRng cexTrng).map
        fun x => x.1.map Column.active_index) := by
  rw [stepColumns_eq_order]
  norm_num [stepColumnsOrder, Column.stepRng, Column.stepBody, Column.step,
    Rng.nextFloat, Rng.nextBool, Rng.nextRange, Rng.next, cexRng, cexTrng,
    cexColTop, cexColMid, Column.new, fade_color_empty, choose_random, randRange,
    List.range_succ]

/-- C10: the index sampled by `random_range(0..characters.count())` is
always strictly below the alphabet size, so `nth(...).unwrap()` inside
`Glyph::new_random` never panics; and every glyph it produces carries one
of the fixed alphabet symbols, never the blank used by `Glyph::empty`. -/
theorem claim_C10 :
    (∀ draw : ℕ, randRange draw glyphCharacters.length < glyphCharacters.length) ∧
    (∀ (idx : ℕ) (color : HexColor), idx < glyphCharacters.length →
      ∃ g, Glyph.new_random? idx color = some g ∧ g.character ∈ glyphCharacters ∧
        g.character ≠ ' ') ∧
    (∀ (draw : ℕ) (color : HexColor),
      (Glyph.new_random draw color).character ∈ glyphCharacters ∧
      (Glyph.new_random draw color).character ≠ ' ') := by
  have hmem : ∀ (idx : ℕ) (color : HexColor), idx < glyphCharacters.length →
      ∃ g, Glyph.new_random? idx color = some g ∧ g.character ∈ glyphCharacters ∧
        g.character ≠ ' ' := by
    intro idx color hidx
    refine ⟨⟨glyphCharacters[idx], color⟩, ?_, ?_, ?_⟩
    · unfold Glyph.new_random?
      rw [List.getElem?_eq_getElem hidx]
      rfl
    · exact List.getElem_mem hidx
    · intro h
      exact space_not_in_glyphCharacters (h ▸ List.getElem_mem hidx)
  refine ⟨fun draw => Nat.mod_lt draw glyphCharacters_pos, hmem, ?_⟩
  intro draw color
  obtain ⟨g, hg, hg2, hg3⟩ :=
    hmem (randRange draw glyphCharacters.length) color
      (Nat.mod_lt draw glyphCharacters_pos)
  unfold Glyph.new_random
  rw [hg]
  exact ⟨hg2, hg3⟩

/-- C10 witness: the claim instantiated at concrete draws and a concrete
colour. -/
theorem claim_C10_witness :
    randRange 100 glyphCharacters.length < glyphCharacters.length ∧
    (∃ g, Glyph.new_random? 7 (HexColor.rgb 1 2 3) = some g ∧
      g.character ∈ glyphCharacters ∧ g.character ≠ ' ') ∧
    ((Glyph.new_random 100 (HexColor.rgb 1 2 3)).character ∈ glyphCharacters ∧
     (Glyph.new_random 100 (HexColor.rgb 1 2 3)).character ≠ ' ') :=
  ⟨claim_C10.1 100, claim_C10.2.1 7 (HexColor.rgb 1 2 3) (by decide),
    claim_C10.2.2 100 (HexColor.rgb 1 2 3)⟩

end MatrixRain
